import Mathlib

/-!
Verification of the memoization-cache family and the character-range
compaction algorithm of `pyparsing/util.py`.

The caches (`_UnboundedCache`, `_FifoCache`, `LRUMemo`, `UnboundedMemo`) are
embedded as explicit state-passing functions over insertion-ordered
association lists, which model Python `dict` / `collections.OrderedDict`
(both iterate in insertion order; assignment to an existing key keeps its
position).  A Python `KeyError` is modelled by the `PyResult.keyError`
constructor; the identity sentinel `not_in_cache` returned by `dict.get`
is modelled by `Option.none`.

The compactor `_collapse_string_to_ranges` and its helpers are embedded
over `List Char`, with `Char.toNat` playing the role of `ord`.
-/

set_option linter.unusedVariables false
set_option linter.unusedSectionVars false

namespace PyparsingUtil

/-- Result of a Python operation that may raise `KeyError`. -/
inductive PyResult (α : Type) where
  | ok (a : α)
  | keyError
deriving DecidableEq, Repr

variable {K V : Type} [DecidableEq K]

/-- Lookup in a Python dict modelled as an insertion-ordered association list. -/
def alookup (k : K) : List (K × V) → Option V
  | [] => none
  | (x, v) :: rest => if k = x then some v else alookup k rest

/-- `d[k] = v` on a Python `dict` / `OrderedDict`: overwrite in place if the key
is present (keeping its position), otherwise append at the end. -/
def aset (k : K) (v : V) : List (K × V) → List (K × V)
  | [] => [(k, v)]
  | (x, w) :: rest => if k = x then (k, v) :: rest else (x, w) :: aset k v rest

/-- `d.pop(k, ...)` removal effect: drop the entry with key `k`, if present. -/
def aremove (k : K) : List (K × V) → List (K × V)
  | [] => []
  | (x, w) :: rest => if k = x then rest else (x, w) :: aremove k rest

/-- The keys of an association list, in insertion order. -/
def keysOf (l : List (K × V)) : List K := l.map Prod.fst

/-- State of `_UnboundedCache`: the closed-over dict `cache`.  `get` returns
the `not_in_cache` sentinel (here `Option.none`) on a miss and never raises. -/
structure _UnboundedCache (K V : Type) where
  cache : List (K × V)
deriving DecidableEq, Repr

/-- `_UnboundedCache.__init__`: empty dict, no parameters. -/
def _UnboundedCache.init : _UnboundedCache K V := ⟨[]⟩

/-- `get(self, key): return cache_get(key, not_in_cache)`. -/
def _UnboundedCache.get (s : _UnboundedCache K V) (k : K) : Option V :=
  alookup k s.cache

/-- `set_(self, key, value): cache[key] = value`. -/
def _UnboundedCache.set (s : _UnboundedCache K V) (k : K) (v : V) :
    _UnboundedCache K V :=
  ⟨aset k v s.cache⟩

/-- `clear(self): cache.clear()`. -/
def _UnboundedCache.clear (s : _UnboundedCache K V) : _UnboundedCache K V := ⟨[]⟩

/-- State of `_FifoCache`: the stored bound `size` and the `OrderedDict`. -/
structure _FifoCache (K V : Type) where
  size : Int
  cache : List (K × V)
deriving DecidableEq, Repr

/-- `_FifoCache.__init__(size)`: the bound is stored exactly as given; the
constructor performs no validation and cannot fail. -/
def _FifoCache.init (size : Int) : _FifoCache K V := ⟨size, []⟩

/-- `get(self, key): return cache_get(key, not_in_cache)` — sentinel, no raise. -/
def _FifoCache.get (s : _FifoCache K V) (k : K) : Option V :=
  alookup k s.cache

/-- `while len(cache) > size: cache.popitem(last=False)`.  `popitem` on an
empty `OrderedDict` raises `KeyError`; that branch is reachable only for a
negative `size`. -/
def fifoEvict (size : Int) : List (K × V) → PyResult (List (K × V))
  | [] => if (0 : Int) > size then .keyError else .ok []
  | x :: rest =>
    if ((x :: rest).length : Int) > size then fifoEvict size rest
    else .ok (x :: rest)

/-- `set_(self, key, value)`: insert, then evict oldest-inserted entries while
over the bound.  On the (negative-size) `KeyError` path the dict has been
fully emptied when the exception propagates. -/
def _FifoCache.set (s : _FifoCache K V) (k : K) (v : V) :
    PyResult Unit × _FifoCache K V :=
  match fifoEvict s.size (aset k v s.cache) with
  | .ok c => (.ok (), ⟨s.size, c⟩)
  | .keyError => (.keyError, ⟨s.size, []⟩)

/-- `clear(self): cache.clear()`. -/
def _FifoCache.clear (s : _FifoCache K V) : _FifoCache K V := ⟨s.size, []⟩

/-- State of `LRUMemo`: the stored `capacity`, the plain dict `_active`, and
the `OrderedDict` `_memory` (head = least recently used, tail = most
recently used). -/
structure LRUMemo (K V : Type) where
  _capacity : Int
  _active : List (K × V)
  _memory : List (K × V)
deriving DecidableEq, Repr

/-- `LRUMemo.__init__(capacity)`: stores the capacity unvalidated, with both
mappings empty. -/
def LRUMemo.init (capacity : Int) : LRUMemo K V := ⟨capacity, [], []⟩

/-- `__getitem__`: try `_active[key]`; on `KeyError`, run
`_memory.move_to_end(key)` then return `_memory[key]`.  `move_to_end` raises
`KeyError` when the key is absent from `_memory`, so a miss in both tiers
raises rather than returning a value. -/
def LRUMemo.getItem (s : LRUMemo K V) (k : K) : PyResult V × LRUMemo K V :=
  match alookup k s._active with
  | some v => (.ok v, s)
  | none =>
    match alookup k s._memory with
    | some v => (.ok v, { s with _memory := aremove k s._memory ++ [(k, v)] })
    | none => (.keyError, s)

/-- `__setitem__`: `self._memory.pop(key, None); self._active[key] = value`. -/
def LRUMemo.setItem (s : LRUMemo K V) (k : K) (v : V) : LRUMemo K V :=
  { s with _memory := aremove k s._memory, _active := aset k v s._active }

/-- `while len(self._memory) >= self._capacity: self._memory.popitem(last=False)`.
As in `fifoEvict`, `popitem` on an empty dict raises `KeyError`; that branch
is reachable only for `capacity <= 0`. -/
def lruEvict (capacity : Int) : List (K × V) → PyResult (List (K × V))
  | [] => if (0 : Int) ≥ capacity then .keyError else .ok []
  | x :: rest =>
    if ((x :: rest).length : Int) ≥ capacity then lruEvict capacity rest
    else .ok (x :: rest)

/-- `__delitem__`: pop from `_active` (swallowing the `KeyError` of an absent
key), and only if a value was popped, evict from `_memory` down to below
capacity and retire the value at the most-recently-used end. -/
def LRUMemo.delItem (s : LRUMemo K V) (k : K) : PyResult Unit × LRUMemo K V :=
  match alookup k s._active with
  | none => (.ok (), s)
  | some v =>
    match lruEvict s._capacity s._memory with
    | .ok m =>
      (.ok (), { s with _active := aremove k s._active, _memory := aset k v m })
    | .keyError => (.keyError, { s with _active := aremove k s._active, _memory := [] })

/-- `clear`: empties both tiers. -/
def LRUMemo.clear (s : LRUMemo K V) : LRUMemo K V :=
  { s with _active := [], _memory := [] }

/-- States of an `LRUMemo` reachable from a fresh construction by any sequence
of `__getitem__`, `__setitem__`, `__delitem__` and `clear` calls (the state a
raising call leaves behind included). -/
inductive LRUMemo.Reachable : LRUMemo K V → Prop where
  | init (capacity : Int) : Reachable (LRUMemo.init capacity)
  | get (s : LRUMemo K V) (k : K) : Reachable s → Reachable (s.getItem k).2
  | set (s : LRUMemo K V) (k : K) (v : V) : Reachable s → Reachable (s.setItem k v)
  | del (s : LRUMemo K V) (k : K) : Reachable s → Reachable (s.delItem k).2
  | clear (s : LRUMemo K V) : Reachable s → Reachable s.clear

/-- The internal well-formedness of an `LRUMemo` state: both mappings have
no duplicate keys and no key is in both tiers at once. -/
def LRUMemo.Inv (s : LRUMemo K V) : Prop :=
  (keysOf s._active).Nodup ∧ (keysOf s._memory).Nodup ∧
    ∀ k, ¬(k ∈ keysOf s._active ∧ k ∈ keysOf s._memory)

/-- State of `UnboundedMemo`, a `dict` subclass: the dict contents. -/
structure UnboundedMemo (K V : Type) where
  data : List (K × V)
deriving DecidableEq, Repr

/-- `dict.__getitem__`: value on a hit, `KeyError` on a miss. -/
def UnboundedMemo.getItem (s : UnboundedMemo K V) (k : K) : PyResult V :=
  match alookup k s.data with
  | some v => .ok v
  | none => .keyError

/-- `dict.__setitem__`. -/
def UnboundedMemo.setItem (s : UnboundedMemo K V) (k : K) (v : V) :
    UnboundedMemo K V :=
  ⟨aset k v s.data⟩

/-- `UnboundedMemo.__delitem__(self, key): pass` — deletion does nothing. -/
def UnboundedMemo.delItem (s : UnboundedMemo K V) (k : K) : UnboundedMemo K V := s

/-- The escape set `r"\^-]["` tested by `escape_re_range_char` (also the
characters replaced by `_escape_regex_range_chars`, whose literal `r"\^-[]"`
is the same set). -/
def rangeSpecials : List Char := ['\\', '^', '-', ']', '[']

/-- `escape_re_range_char(c)`: `"\\" + c if c in r"\^-][" else c`, as a
character list. -/
def escape_re_range_char (c : Char) : List Char :=
  if c ∈ rangeSpecials then ['\\', c] else [c]

/-- `s.replace(c, repl)` for a single-character pattern `c`. -/
def replaceChar (c : Char) (repl : List Char) (s : List Char) : List Char :=
  s.flatMap fun x => if x = c then repl else [x]

/-- `_escape_regex_range_chars(s)`: for each `c` in `r"\^-[]"` in order,
`s = s.replace(c, bslash + c)`; then `s.replace("\n", r"\n")` and
`s.replace("\t", r"\t")`. -/
def _escape_regex_range_chars (s : List Char) : List Char :=
  replaceChar '\t' ['\\', 't']
    (replaceChar '\n' ['\\', 'n']
      (replaceChar ']' ['\\', ']']
        (replaceChar '[' ['\\', '[']
          (replaceChar '-' ['\\', '-']
            (replaceChar '^' ['\\', '^']
              (replaceChar '\\' ['\\', '\\'] s))))))

/-- Single-pass characterization of `_escape_regex_range_chars`: what the
sequential replaces amount to per input character. -/
def escPrePass (c : Char) : List Char :=
  if c ∈ rangeSpecials then ['\\', c]
  else if c = '\n' then ['\\', 'n']
  else if c = '\t' then ['\\', 't']
  else [c]

/-- The last element of the nonempty list `c :: l` (the group's `last` obtained
in the source by draining the group iterator through a 1-element deque). -/
def lastChar (c : Char) : List Char → Char
  | [] => c
  | d :: rest => lastChar d rest

/-- Emission for one `groupby` group: `escape(first)` alone when
`first == last`, otherwise `escape(first) + sep + escape(last)` with `sep`
empty exactly when `ord(last) == ord(first) + 1`. -/
def renderRun (esc : Char → List Char) : List Char → List Char
  | [] => []
  | c :: rest =>
    if c = lastChar c rest then esc c
    else if (lastChar c rest).toNat = c.toNat + 1 then esc c ++ esc (lastChar c rest)
    else esc c ++ '-' :: esc (lastChar c rest)

/-- One step of `is_consecutive`'s stateful key: the key value is unchanged
(same group) exactly when `ord(cur) - ord(prev) <= 1`; a gap `> 1` bumps the
counter and starts a new group. -/
def consecutiveStep (prev cur : Char) : Bool :=
  decide ((cur.toNat : Int) - (prev.toNat : Int) ≤ 1)

/-- Successor relation on code points: adjacent characters of a run differ by
exactly one. -/
def StepOne (a b : Char) : Prop := b.toNat = a.toNat + 1

/-- The partition produced by `itertools.groupby(s, key=is_consecutive)`:
maximal adjacent blocks whose successive code points differ by at most one. -/
def splitRuns : List Char → List (List Char)
  | [] => []
  | [c] => [[c]]
  | c :: d :: rest =>
    if consecutiveStep c d then
      match splitRuns (d :: rest) with
      | [] => [[c]]
      | r :: tail => (c :: r) :: tail
    else [c] :: splitRuns (d :: rest)

/-- `"".join(sorted(set(s)))`: deduplicate, then sort by code point. -/
def dedupSorted (s : List Char) : List Char :=
  List.insertionSort (fun a b => a.toNat ≤ b.toNat) s.dedup

/-- `_collapse_string_to_ranges(s, re_escape)`, producing the output character
list: with more than 3 distinct characters, emit each `groupby` run through
`renderRun`; otherwise emit each character individually. -/
def collapseChars (s : List Char) (re_escape : Bool) : List Char :=
  let esc := if re_escape then escape_re_range_char else fun c => [c]
  let sorted := dedupSorted s
  if sorted.length > 3 then ((splitRuns sorted).map (renderRun esc)).flatten
  else (sorted.map esc).flatten

/-- `_collapse_string_to_ranges(s, re_escape)` as a `String`. -/
def _collapse_string_to_ranges (s : List Char) (re_escape : Bool) : String :=
  String.mk (collapseChars s re_escape)

mutual

/-- Standard character-class interpretation of a class body: `classMatches c l`
decides whether character `c` is matched by the body `l`, reading tokens left
to right — a backslash escape denotes its escaped character, `first-last`
denotes all code points from `first` to `last` inclusive, and any other
character denotes itself. -/
def classMatches (c : Char) : List Char → Bool
  | [] => false
  | a :: l =>
    if a = '\\' then
      match l with
      | [] => decide (c = '\\')
      | e :: l1 => classAfterFirst c e l1
    else classAfterFirst c a l

/-- Continuation of `classMatches` after a first token denoting character `e`
has been read: either a `-` follows and a range endpoint is read, or `e`
stands alone. -/
def classAfterFirst (c e : Char) : List Char → Bool
  | [] => decide (c = e)
  | b :: l =>
    if b = '-' then
      match l with
      | [] => decide (c = e) || decide (c = '-')
      | f :: l1 =>
        if f = '\\' then
          match l1 with
          | [] => decide (e.toNat ≤ c.toNat) && decide (c.toNat ≤ f.toNat)
          | g :: l2 =>
            (decide (e.toNat ≤ c.toNat) && decide (c.toNat ≤ g.toNat)) ||
              classMatches c l2
        else
          (decide (e.toNat ≤ c.toNat) && decide (c.toNat ≤ f.toNat)) ||
            classMatches c l1
    else
      decide (c = e) ||
        (if b = '\\' then
          match l with
          | [] => decide (c = '\\')
          | e2 :: l2 => classAfterFirst c e2 l2
        else classAfterFirst c b l)

end

theorem alookup_eq_none_iff (k : K) (l : List (K × V)) :
    alookup k l = none ↔ k ∉ keysOf l := by
  induction l with
  | nil => simp [alookup, keysOf]
  | cons p rest ih =>
    obtain ⟨x, w⟩ := p
    by_cases h : k = x
    · simp [alookup, keysOf, h]
    · simp [alookup, keysOf, h, ih]

theorem mem_keysOf_aset (j k : K) (v : V) (l : List (K × V)) :
    j ∈ keysOf (aset k v l) ↔ j = k ∨ j ∈ keysOf l := by
  induction l with
  | nil => simp [aset, keysOf]
  | cons p rest ih =>
    obtain ⟨x, w⟩ := p
    by_cases h : k = x
    · subst h
      simp [aset, keysOf]
    · simp only [aset, if_neg h, keysOf, List.map_cons, List.mem_cons]
      rw [show (keysOf (aset k v rest) = (aset k v rest).map Prod.fst) from rfl] at ih
      rw [show (keysOf rest = rest.map Prod.fst) from rfl] at ih
      rw [ih]
      tauto

theorem mem_keysOf_aremove (j k : K) (l : List (K × V)) :
    j ∈ keysOf (aremove k l) → j ∈ keysOf l := by
  induction l with
  | nil => simp [aremove]
  | cons p rest ih =>
    obtain ⟨x, w⟩ := p
    by_cases h : k = x
    · simp only [aremove, if_pos h, keysOf, List.map_cons, List.mem_cons]
      tauto
    · simp only [aremove, if_neg h, keysOf, List.map_cons, List.mem_cons]
      rintro (rfl | hj)
      · exact Or.inl rfl
      · exact Or.inr (ih hj)

theorem nodup_keysOf_aset (k : K) (v : V) (l : List (K × V))
    (h : (keysOf l).Nodup) : (keysOf (aset k v l)).Nodup := by
  induction l with
  | nil => simp [aset, keysOf]
  | cons p rest ih =>
    obtain ⟨x, w⟩ := p
    simp only [keysOf, List.map_cons, List.nodup_cons] at h
    by_cases hk : k = x
    · subst hk
      simpa [aset, keysOf, List.nodup_cons] using h
    · simp only [aset, if_neg hk, keysOf, List.map_cons, List.nodup_cons]
      refine ⟨?_, ih h.2⟩
      intro hx
      rcases (mem_keysOf_aset x k v rest).mp hx with h1 | h2
      · exact hk (h1.symm)
      · exact h.1 h2

theorem nodup_keysOf_aremove (k : K) (l : List (K × V))
    (h : (keysOf l).Nodup) : (keysOf (aremove k l)).Nodup := by
  induction l with
  | nil => simp [aremove, keysOf]
  | cons p rest ih =>
    obtain ⟨x, w⟩ := p
    simp only [keysOf, List.map_cons, List.nodup_cons] at h
    by_cases hk : k = x
    · simpa [aremove, if_pos hk, keysOf] using h.2
    · simp only [aremove, if_neg hk, keysOf, List.map_cons, List.nodup_cons]
      exact ⟨fun hx => h.1 (mem_keysOf_aremove x k rest hx), ih h.2⟩

theorem not_mem_keysOf_aremove (k : K) (l : List (K × V))
    (h : (keysOf l).Nodup) : k ∉ keysOf (aremove k l) := by
  induction l with
  | nil => simp [aremove, keysOf]
  | cons p rest ih =>
    obtain ⟨x, w⟩ := p
    simp only [keysOf, List.map_cons, List.nodup_cons] at h
    by_cases hk : k = x
    · subst hk
      simpa [aremove, keysOf] using h.1
    · simp only [aremove, if_neg hk, keysOf, List.map_cons, List.mem_cons]
      rintro (rfl | hmem)
      · exact hk rfl
      · exact ih h.2 hmem

theorem alookup_aset_self (k : K) (v : V) (l : List (K × V)) :
    alookup k (aset k v l) = some v := by
  induction l with
  | nil => simp [aset, alookup]
  | cons p rest ih =>
    obtain ⟨x, w⟩ := p
    by_cases h : k = x
    · simp [aset, alookup, h]
    · simp [aset, alookup, h, ih]

theorem lruEvict_sublist (cap : Int) :
    ∀ l m : List (K × V), lruEvict cap l = .ok m → m.Sublist l := by
  intro l
  induction l with
  | nil =>
    intro m h
    unfold lruEvict at h
    split at h
    · exact absurd h (by simp)
    · simp only [PyResult.ok.injEq] at h
      subst h
      exact List.Sublist.refl _
  | cons x rest ih =>
    intro m h
    unfold lruEvict at h
    split at h
    · exact (ih m h).cons x
    · simp only [PyResult.ok.injEq] at h
      subst h
      exact List.Sublist.refl _

theorem keysOf_append (l₁ l₂ : List (K × V)) :
    keysOf (l₁ ++ l₂) = keysOf l₁ ++ keysOf l₂ := by
  simp [keysOf]

theorem keysOf_sublist {l₁ l₂ : List (K × V)} (h : l₁.Sublist l₂) :
    (keysOf l₁).Sublist (keysOf l₂) := h.map Prod.fst

theorem inv_init (capacity : Int) : (LRUMemo.init capacity : LRUMemo K V).Inv := by
  simp [LRUMemo.init, LRUMemo.Inv, keysOf]

theorem inv_clear (s : LRUMemo K V) : s.clear.Inv := by
  simp [LRUMemo.clear, LRUMemo.Inv, keysOf]

theorem inv_getItem (s : LRUMemo K V) (k : K) (h : s.Inv) : ((s.getItem k).2).Inv := by
  obtain ⟨ha, hm, hd⟩ := h
  unfold LRUMemo.getItem
  cases hA : alookup k s._active with
  | some v => exact ⟨ha, hm, hd⟩
  | none =>
    cases hM : alookup k s._memory with
    | none => exact ⟨ha, hm, hd⟩
    | some v =>
      refine ⟨ha, ?_, ?_⟩
      · simp only [keysOf_append]
        rw [List.nodup_append]
        refine ⟨nodup_keysOf_aremove k s._memory hm, List.nodup_singleton k, ?_⟩
        intro j hj hj2
        simp only [keysOf, List.map_cons, List.map_nil, List.mem_singleton] at hj2
        subst hj2
        exact not_mem_keysOf_aremove j s._memory hm hj
      · intro j hj
        obtain ⟨hj1, hj2⟩ := hj
        simp only [keysOf_append] at hj2
        rcases List.mem_append.mp hj2 with h2 | h2
        · exact hd j ⟨hj1, mem_keysOf_aremove j k s._memory h2⟩
        · simp only [keysOf, List.map_cons, List.map_nil, List.mem_singleton] at h2
          subst h2
          exact (alookup_eq_none_iff j s._active).mp hA hj1

theorem inv_setItem (s : LRUMemo K V) (k : K) (v : V) (h : s.Inv) :
    (s.setItem k v).Inv := by
  obtain ⟨ha, hm, hd⟩ := h
  unfold LRUMemo.setItem
  refine ⟨nodup_keysOf_aset k v s._active ha, nodup_keysOf_aremove k s._memory hm, ?_⟩
  intro j hj
  obtain ⟨hj1, hj2⟩ := hj
  rcases (mem_keysOf_aset j k v s._active).mp hj1 with rfl | h1
  · exact not_mem_keysOf_aremove j s._memory hm hj2
  · exact hd j ⟨h1, mem_keysOf_aremove j k s._memory hj2⟩

theorem inv_delItem (s : LRUMemo K V) (k : K) (h : s.Inv) : ((s.delItem k).2).Inv := by
  obtain ⟨ha, hm, hd⟩ := h
  unfold LRUMemo.delItem
  cases hA : alookup k s._active with
  | none => exact ⟨ha, hm, hd⟩
  | some v =>
    cases hE : lruEvict s._capacity s._memory with
    | keyError =>
      refine ⟨nodup_keysOf_aremove k s._active ha, by simp [keysOf], ?_⟩
      intro j hj
      simpa [keysOf] using hj.2
    | ok m =>
      have hs : (keysOf m).Sublist (keysOf s._memory) :=
        keysOf_sublist (lruEvict_sublist s._capacity s._memory m hE)
      have hmnd : (keysOf m).Nodup := hm.sublist hs
      refine ⟨nodup_keysOf_aremove k s._active ha, nodup_keysOf_aset k v m hmnd, ?_⟩
      intro j hj
      obtain ⟨hj1, hj2⟩ := hj
      have hj1' : j ∈ keysOf s._active := mem_keysOf_aremove j k s._active hj1
      rcases (mem_keysOf_aset j k v m).mp hj2 with rfl | h2
      · exact not_mem_keysOf_aremove j s._active ha hj1
      · exact hd j ⟨hj1', hs.subset h2⟩

/-- C6: in the `LRUMemo` cache, in every state reachable by any sequence of
`get`, `set`, `delete` and `clear` operations from a fresh cache, no key is
simultaneously present in the active mapping and in the retired mapping. -/
theorem claim_C6 (s : LRUMemo K V) (h : s.Reachable) (k : K) :
    ¬(k ∈ keysOf s._active ∧ k ∈ keysOf s._memory) := by
  have hinv : s.Inv := by
    induction h with
    | init c => exact inv_init c
    | get s k _ ih => exact inv_getItem s k ih
    | set s k v _ ih => exact inv_setItem s k v ih
    | del s k _ ih => exact inv_delItem s k ih
    | clear s _ ih => exact inv_clear s
  exact hinv.2.2 k

theorem claim_C6_witness :
    ¬(0 ∈ keysOf ((LRUMemo.init 2 : LRUMemo Nat Nat).setItem 0 5)._active ∧
      0 ∈ keysOf ((LRUMemo.init 2 : LRUMemo Nat Nat).setItem 0 5)._memory) :=
  claim_C6 _ (LRUMemo.Reachable.set _ 0 5 (LRUMemo.Reachable.init 2)) 0

/-- C1 (counterexample): constructing `_FifoCache` with size `0` and `LRUMemo`
with capacity `-1` succeeds — `__init__` performs no validation and stores the
non-positive bound as given, and the resulting FIFO cache even services a
`set` normally — contradicting the claim that construction with a
non-positive bound fails with a configuration error. -/
theorem claim_C1_cex :
    (_FifoCache.init 0 : _FifoCache Nat Nat) = ⟨0, []⟩ ∧
    (LRUMemo.init (-1) : LRUMemo Nat Nat) = ⟨-1, [], []⟩ ∧
    ((_FifoCache.init 0 : _FifoCache Nat Nat).set 1 5).1 = PyResult.ok () := by
  refine ⟨rfl, rfl, by decide⟩

/-- C1 (amended): construction with a non-positive bound succeeds, storing the
bound unchanged — neither rejected nor clamped.  The misconfiguration only
surfaces in later operations: a size-0 FIFO cache immediately evicts every
entry on `set`, a negative-size FIFO cache raises `KeyError` from `set`, and
an `LRUMemo` with capacity `<= 0` raises `KeyError` when an active key is
deleted. -/
theorem claim_C1 (n : Int) (hn : n ≤ 0) :
    (_FifoCache.init n : _FifoCache Nat Nat).size = n ∧
    (LRUMemo.init n : LRUMemo Nat Nat)._capacity = n ∧
    ((_FifoCache.init 0 : _FifoCache Nat Nat).set 1 5) = (PyResult.ok (), ⟨0, []⟩) ∧
    ((_FifoCache.init (-1) : _FifoCache Nat Nat).set 1 5).1 = PyResult.keyError ∧
    (((LRUMemo.init 0 : LRUMemo Nat Nat).setItem 1 5).delItem 1).1 = PyResult.keyError :=
  ⟨rfl, rfl, by decide, by decide, by decide⟩

theorem claim_C1_witness :
    (_FifoCache.init (-2) : _FifoCache Nat Nat).size = -2 ∧
    (LRUMemo.init (-2) : LRUMemo Nat Nat)._capacity = -2 ∧
    ((_FifoCache.init 0 : _FifoCache Nat Nat).set 1 5) = (PyResult.ok (), ⟨0, []⟩) ∧
    ((_FifoCache.init (-1) : _FifoCache Nat Nat).set 1 5).1 = PyResult.keyError ∧
    (((LRUMemo.init 0 : LRUMemo Nat Nat).setItem 1 5).delItem 1).1 = PyResult.keyError :=
  claim_C1 (-2) (by decide)

/-- C3 (counterexample): on a freshly constructed `LRUMemo` (a reachable
state), `__getitem__` on an absent key does not return a not-found value as a
normal result: `_memory.move_to_end(key)` raises `KeyError`, which
propagates. -/
theorem claim_C3_cex :
    ((LRUMemo.init 2 : LRUMemo Nat Nat).getItem 0).1 = PyResult.keyError := by
  decide

/-- C3 (amended): for the sentinel-based variants `_UnboundedCache` and
`_FifoCache`, `get` of an absent key returns the `not_in_cache` sentinel
(`none`) as a normal value in every state and never raises; for `LRUMemo`,
a key absent from both tiers makes `__getitem__` raise `KeyError` (leaving
the state unchanged) rather than return a not-found value. -/
theorem claim_C3 :
    (∀ (s : _UnboundedCache Nat Nat) (k : Nat), k ∉ keysOf s.cache → s.get k = none) ∧
    (∀ (s : _FifoCache Nat Nat) (k : Nat), k ∉ keysOf s.cache → s.get k = none) ∧
    (∀ (s : LRUMemo Nat Nat) (k : Nat),
      k ∉ keysOf s._active → k ∉ keysOf s._memory →
        s.getItem k = (PyResult.keyError, s)) := by
  refine ⟨?_, ?_, ?_⟩
  · intro s k h
    exact (alookup_eq_none_iff k s.cache).mpr h
  · intro s k h
    exact (alookup_eq_none_iff k s.cache).mpr h
  · intro s k h1 h2
    simp only [LRUMemo.getItem, (alookup_eq_none_iff k s._active).mpr h1,
      (alookup_eq_none_iff k s._memory).mpr h2]

theorem claim_C3_witness :
    (_UnboundedCache.init : _UnboundedCache Nat Nat).get 7 = none ∧
    (_FifoCache.init 2 : _FifoCache Nat Nat).get 7 = none ∧
    (LRUMemo.init 2 : LRUMemo Nat Nat).getItem 7 = (PyResult.keyError, LRUMemo.init 2) :=
  ⟨claim_C3.1 _ 7 (by decide), claim_C3.2.1 _ 7 (by decide),
    claim_C3.2.2 _ 7 (by decide) (by decide)⟩

/-- C4 (counterexample): after `set(a,1); set(b,2); delete(a); delete(b);
set(c,3); delete(c)` on an `LRUMemo` of capacity 2 (keys 0, 1, 2), looking up
the evicted key `a` does not return a not-found value: `__getitem__` raises
`KeyError`. -/
theorem claim_C4_cex :
    ((((((((LRUMemo.init 2 : LRUMemo Nat Nat).setItem 0 1).setItem 1
        2).delItem 0).2.delItem 1).2.setItem 2 3).delItem 2).2.getItem 0).1
      = PyResult.keyError := by
  decide

/-- C4 (amended): on a fresh `LRUMemo` of capacity 2, `set(a,1); set(b,2);
delete(a); delete(b)` leaves both `a` and `b` retired (in that recency
order); after `set(c,3); delete(c)`, `a` — the least recently retired — has
been evicted while `b` and `c` remain: looking up `a` raises `KeyError`
(the code's signal for a full miss), while `b` and `c` return their stored
values. -/
theorem claim_C4 (a b c : Nat) (hab : a ≠ b) (hac : a ≠ c) (hbc : b ≠ c) :
    ((((((LRUMemo.init 2 : LRUMemo Nat Nat).setItem a 1).setItem
        b 2).delItem a).2.delItem b).2 = ⟨2, [], [(a, 1), (b, 2)]⟩) ∧
    ((((((((LRUMemo.init 2 : LRUMemo Nat Nat).setItem a 1).setItem
        b 2).delItem a).2.delItem b).2.setItem c 3).delItem c).2
      = ⟨2, [], [(b, 2), (c, 3)]⟩) ∧
    ((⟨2, [], [(b, 2), (c, 3)]⟩ : LRUMemo Nat Nat).getItem a).1 = PyResult.keyError ∧
    ((⟨2, [], [(b, 2), (c, 3)]⟩ : LRUMemo Nat Nat).getItem b).1 = PyResult.ok 2 ∧
    ((⟨2, [], [(b, 2), (c, 3)]⟩ : LRUMemo Nat Nat).getItem c).1 = PyResult.ok 3 := by
  have hba := Ne.symm hab
  have hca := Ne.symm hac
  have hcb := Ne.symm hbc
  refine ⟨?_, ?_, ?_, ?_, ?_⟩ <;>
    simp [LRUMemo.init, LRUMemo.setItem, LRUMemo.delItem, LRUMemo.getItem,
      aset, aremove, alookup, lruEvict, hab, hac, hbc, hba, hca, hcb]

theorem claim_C4_witness :
    ((((((LRUMemo.init 2 : LRUMemo Nat Nat).setItem 0 1).setItem
        1 2).delItem 0).2.delItem 1).2 = ⟨2, [], [(0, 1), (1, 2)]⟩) ∧
    ((((((((LRUMemo.init 2 : LRUMemo Nat Nat).setItem 0 1).setItem
        1 2).delItem 0).2.delItem 1).2.setItem 2 3).delItem 2).2
      = ⟨2, [], [(1, 2), (2, 3)]⟩) ∧
    ((⟨2, [], [(1, 2), (2, 3)]⟩ : LRUMemo Nat Nat).getItem 0).1 = PyResult.keyError ∧
    ((⟨2, [], [(1, 2), (2, 3)]⟩ : LRUMemo Nat Nat).getItem 1).1 = PyResult.ok 2 ∧
    ((⟨2, [], [(1, 2), (2, 3)]⟩ : LRUMemo Nat Nat).getItem 2).1 = PyResult.ok 3 :=
  claim_C4 0 1 2 (by decide) (by decide) (by decide)

/-- C5: a `get` that falls through to the retired tier promotes the key to the
most-recently-used end of `_memory` while keeping it retired (the active tier
is untouched and the value is returned normally); consequently, in the
capacity-2 scenario, after retiring `a` then `b`, a `get(a)` makes the later
capacity-triggered eviction (from `set(c); delete(c)`) remove `b`, the
genuinely least-recently-used retired entry, sparing the promoted `a`. -/
theorem claim_C5 :
    (∀ (s : LRUMemo Nat Nat) (k v : Nat),
      alookup k s._active = none → alookup k s._memory = some v →
        s.getItem k
            = (PyResult.ok v, { s with _memory := aremove k s._memory ++ [(k, v)] }) ∧
        ((s.getItem k).2)._memory.getLast? = some (k, v) ∧
        ((s.getItem k).2)._active = s._active) ∧
    ((((((((((LRUMemo.init 2 : LRUMemo Nat Nat).setItem 0 1).setItem
        1 2).delItem 0).2.delItem 1).2.getItem 0).2.setItem 2 3).delItem 2).2)
      = ⟨2, [], [(0, 1), (2, 3)]⟩) := by
  constructor
  · intro s k v h1 h2
    have hg : s.getItem k
        = (PyResult.ok v, { s with _memory := aremove k s._memory ++ [(k, v)] }) := by
      simp only [LRUMemo.getItem, h1, h2]
    refine ⟨hg, ?_, ?_⟩
    · rw [hg]
      exact List.getLast?_concat _
    · rw [hg]
  · decide

theorem claim_C5_witness :
    (⟨2, [], [(5, 9)]⟩ : LRUMemo Nat Nat).getItem 5
        = (PyResult.ok 9,
            { (⟨2, [], [(5, 9)]⟩ : LRUMemo Nat Nat) with
                _memory := aremove 5 [(5, 9)] ++ [(5, 9)] }) ∧
    (((⟨2, [], [(5, 9)]⟩ : LRUMemo Nat Nat).getItem 5).2)._memory.getLast? = some (5, 9) ∧
    (((⟨2, [], [(5, 9)]⟩ : LRUMemo Nat Nat).getItem 5).2)._active = [] :=
  claim_C5.1 ⟨2, [], [(5, 9)]⟩ 5 9 (by decide) (by decide)

/-- C7: on a fresh `_FifoCache` of size 2, `set(a,1); set(b,2); set(c,3)` with
distinct keys evicts exactly the oldest-inserted entry `a`: `get(a)` is the
not-found sentinel while `b` and `c` are found with their stored values.
`get` is a pure read of the dict (it is embedded as a function that returns
no state) and so can neither reorder entries nor affect eviction. -/
theorem claim_C7 (a b c : Nat) (hab : a ≠ b) (hac : a ≠ c) (hbc : b ≠ c) :
    (((((_FifoCache.init 2 : _FifoCache Nat Nat).set a 1).2.set b 2).2.set c 3).2
      = ⟨2, [(b, 2), (c, 3)]⟩) ∧
    ((⟨2, [(b, 2), (c, 3)]⟩ : _FifoCache Nat Nat).get a = none) ∧
    ((⟨2, [(b, 2), (c, 3)]⟩ : _FifoCache Nat Nat).get b = some 2) ∧
    ((⟨2, [(b, 2), (c, 3)]⟩ : _FifoCache Nat Nat).get c = some 3) := by
  have hba := Ne.symm hab
  have hca := Ne.symm hac
  have hcb := Ne.symm hbc
  refine ⟨?_, ?_, ?_, ?_⟩ <;>
    simp [_FifoCache.init, _FifoCache.set, _FifoCache.get, fifoEvict,
      aset, alookup, hab, hac, hbc, hba, hca, hcb]

theorem claim_C7_witness :
    (((((_FifoCache.init 2 : _FifoCache Nat Nat).set 0 1).2.set 1 2).2.set 2 3).2
      = ⟨2, [(1, 2), (2, 3)]⟩) ∧
    ((⟨2, [(1, 2), (2, 3)]⟩ : _FifoCache Nat Nat).get 0 = none) ∧
    ((⟨2, [(1, 2), (2, 3)]⟩ : _FifoCache Nat Nat).get 1 = some 2) ∧
    ((⟨2, [(1, 2), (2, 3)]⟩ : _FifoCache Nat Nat).get 2 = some 3) :=
  claim_C7 0 1 2 (by decide) (by decide) (by decide)

/-- C10: `UnboundedMemo.__delitem__` is a pure no-op: deleting any key (present
or absent) leaves the mapping identical, so the deleted key still looks up to
the value stored by the most recent `set`, and every other entry is likewise
untouched. -/
theorem claim_C10 (s : UnboundedMemo Nat Nat) (k : Nat) :
    s.delItem k = s ∧
    (∀ v, ((s.setItem k v).delItem k).getItem k = PyResult.ok v) ∧
    (∀ j, (s.delItem k).getItem j = s.getItem j) := by
  refine ⟨rfl, ?_, fun j => rfl⟩
  intro v
  simp only [UnboundedMemo.delItem, UnboundedMemo.setItem, UnboundedMemo.getItem,
    alookup_aset_self]

theorem claim_C10_witness :
    (⟨[(1, 2)]⟩ : UnboundedMemo Nat Nat).delItem 3 = ⟨[(1, 2)]⟩ ∧
    (((⟨[(1, 2)]⟩ : UnboundedMemo Nat Nat).setItem 3 7).delItem 3).getItem 3
      = PyResult.ok 7 ∧
    ((⟨[(1, 2)]⟩ : UnboundedMemo Nat Nat).delItem 3).getItem 1
      = (⟨[(1, 2)]⟩ : UnboundedMemo Nat Nat).getItem 1 :=
  ⟨(claim_C10 ⟨[(1, 2)]⟩ 3).1, (claim_C10 ⟨[(1, 2)]⟩ 3).2.1 7,
    (claim_C10 ⟨[(1, 2)]⟩ 3).2.2 1⟩

theorem charToNat_inj {a b : Char} (h : a.toNat = b.toNat) : a = b :=
  Char.ext (UInt32.ext h)

theorem replaceChar_append (c : Char) (repl u v : List Char) :
    replaceChar c repl (u ++ v) = replaceChar c repl u ++ replaceChar c repl v := by
  simp [replaceChar]

theorem escape_regex_append (u v : List Char) :
    _escape_regex_range_chars (u ++ v)
      = _escape_regex_range_chars u ++ _escape_regex_range_chars v := by
  simp only [_escape_regex_range_chars, replaceChar_append]

theorem escape_regex_single (x : Char) :
    _escape_regex_range_chars [x] = escPrePass x := by
  by_cases h1 : x = '\\'
  · subst h1; decide
  by_cases h2 : x = '^'
  · subst h2; decide
  by_cases h3 : x = '-'
  · subst h3; decide
  by_cases h4 : x = '['
  · subst h4; decide
  by_cases h5 : x = ']'
  · subst h5; decide
  by_cases h6 : x = '\n'
  · subst h6; decide
  by_cases h7 : x = '\t'
  · subst h7; decide
  have hns : x ∉ rangeSpecials := by simp [rangeSpecials, h1, h2, h3, h4, h5]
  simp [_escape_regex_range_chars, replaceChar, escPrePass, h1, h2, h3, h4, h5, h6,
    h7, hns]

theorem escape_regex_eq_flatMap (s : List Char) :
    _escape_regex_range_chars s = s.flatMap escPrePass := by
  induction s with
  | nil => decide
  | cons x rest ih =>
    have h : _escape_regex_range_chars ([x] ++ rest)
        = _escape_regex_range_chars [x] ++ _escape_regex_range_chars rest :=
      escape_regex_append [x] rest
    simp only [List.singleton_append] at h
    rw [h, ih, escape_regex_single]
    simp [List.flatMap_cons]

theorem escHead (f : Char) (t : List Char) :
    (escape_re_range_char f ++ t).head? ≠ some '-' := by
  by_cases h : f ∈ rangeSpecials
  · simp only [escape_re_range_char, if_pos h, List.cons_append, List.head?_cons]
    intro hx
    exact absurd (Option.some.inj hx) (by decide)
  · have hf : f ≠ '-' := fun hEq => h (by rw [hEq]; decide)
    simp only [escape_re_range_char, if_neg h, List.cons_append, List.head?_cons]
    intro hx
    exact hf (Option.some.inj hx)

theorem classMatches_esc (c f : Char) (t : List Char) :
    classMatches c (escape_re_range_char f ++ t) = classAfterFirst c f t := by
  by_cases h : f ∈ rangeSpecials
  · simp only [escape_re_range_char, if_pos h, List.cons_append, List.nil_append]
    rw [classMatches.eq_def]
    simp
  · have hf : f ≠ '\\' := fun hEq => h (by rw [hEq]; decide)
    simp only [escape_re_range_char, if_neg h, List.cons_append, List.nil_append]
    rw [classMatches.eq_def]
    simp [hf]

theorem classAfterFirst_nondash (c e : Char) (t : List Char)
    (ht : t.head? ≠ some '-') :
    classAfterFirst c e t = (decide (c = e) || classMatches c t) := by
  cases t with
  | nil =>
    rw [classAfterFirst.eq_def, classMatches.eq_def]
    simp
  | cons b l =>
    have hb : b ≠ '-' := by
      intro hEq
      exact ht (by rw [hEq]; rfl)
    rw [classAfterFirst.eq_def, classMatches.eq_def]
    simp [hb]

theorem classAfterFirst_range (c e g : Char) (t : List Char) :
    classAfterFirst c e ('-' :: (escape_re_range_char g ++ t))
      = ((decide (e.toNat ≤ c.toNat) && decide (c.toNat ≤ g.toNat)) ||
          classMatches c t) := by
  by_cases h : g ∈ rangeSpecials
  · simp only [escape_re_range_char, if_pos h, List.cons_append, List.nil_append]
    rw [classAfterFirst.eq_def]
    simp
  · have hg : g ≠ '\\' := fun hEq => h (by rw [hEq]; decide)
    simp only [escape_re_range_char, if_neg h, List.cons_append, List.nil_append]
    rw [classAfterFirst.eq_def]
    simp [hg]

theorem lastChar_toNat : ∀ (l : List Char) (a : Char),
    List.Chain' StepOne (a :: l) → (lastChar a l).toNat = a.toNat + l.length := by
  intro l
  induction l with
  | nil => intro a h; simp [lastChar]
  | cons d rest ih =>
    intro a h
    rw [List.chain'_cons] at h
    have h1 : d.toNat = a.toNat + 1 := h.1
    have h2 := ih d h.2
    simp only [lastChar, List.length_cons]
    omega

theorem mem_iff_interval : ∀ (l : List Char) (a x : Char),
    List.Chain' StepOne (a :: l) →
    (x ∈ a :: l ↔ a.toNat ≤ x.toNat ∧ x.toNat ≤ (lastChar a l).toNat) := by
  intro l
  induction l with
  | nil =>
    intro a x h
    simp only [List.mem_singleton, lastChar]
    constructor
    · rintro rfl; omega
    · intro h2; exact charToNat_inj (by omega)
  | cons d rest ih =>
    intro a x h
    rw [List.chain'_cons] at h
    have h1 : d.toNat = a.toNat + 1 := h.1
    have hlast : (lastChar d rest).toNat = d.toNat + rest.length :=
      lastChar_toNat rest d h.2
    have ihd := ih d x h.2
    simp only [lastChar, List.mem_cons] at *
    constructor
    · rintro (rfl | hx)
      · omega
      · have := ihd.mp hx
        omega
    · intro hx
      by_cases hxa : x.toNat = a.toNat
      · exact Or.inl (charToNat_inj hxa)
      · exact Or.inr (ihd.mpr ⟨by omega, hx.2⟩)

theorem renderRun_cons (esc : Char → List Char) (f : Char) (l : List Char) :
    ∃ u, renderRun esc (f :: l) = esc f ++ u := by
  rw [renderRun]
  split
  · exact ⟨[], (List.append_nil _).symm⟩
  · split
    · exact ⟨_, rfl⟩
    · exact ⟨_, rfl⟩

theorem classMatches_piece (c : Char) : ∀ r t : List Char, r ≠ [] →
    List.Chain' StepOne r → t.head? ≠ some '-' →
    classMatches c (renderRun escape_re_range_char r ++ t)
      = (decide (c ∈ r) || classMatches c t) := by
  intro r t hr hchain ht
  match r, hr with
  | [f], _ =>
    have hrr : renderRun escape_re_range_char [f] = escape_re_range_char f := by
      simp [renderRun, lastChar]
    rw [hrr, classMatches_esc, classAfterFirst_nondash c f t ht]
    simp
  | [f, l], _ =>
    have hstep : l.toNat = f.toNat + 1 := by
      rw [List.chain'_cons] at hchain
      exact hchain.1
    have hfl : f ≠ l := fun hEq => by rw [hEq] at hstep; omega
    have hrr : renderRun escape_re_range_char [f, l]
        = escape_re_range_char f ++ escape_re_range_char l := by
      rw [renderRun]
      simp only [lastChar]
      rw [if_neg hfl, if_pos hstep]
    rw [hrr, List.append_assoc, classMatches_esc,
      classAfterFirst_nondash c f _ (escHead l t), classMatches_esc,
      classAfterFirst_nondash c l t ht]
    simp [Bool.or_assoc]
  | f :: x :: y :: rest, _ =>
    have hlast : (lastChar f (x :: y :: rest)).toNat
        = f.toNat + (x :: y :: rest).length := lastChar_toNat _ f hchain
    simp only [List.length_cons] at hlast
    have hne : f ≠ lastChar f (x :: y :: rest) := by
      intro hEq
      rw [← hEq] at hlast
      omega
    have hnot1 : ¬((lastChar f (x :: y :: rest)).toNat = f.toNat + 1) := by omega
    have hrr : renderRun escape_re_range_char (f :: x :: y :: rest)
        = escape_re_range_char f ++
            '-' :: escape_re_range_char (lastChar f (x :: y :: rest)) := by
      rw [renderRun, if_neg hne, if_neg hnot1]
    rw [hrr, List.append_assoc, List.cons_append, classMatches_esc,
      classAfterFirst_range]
    have hmem : decide (c ∈ f :: x :: y :: rest)
        = (decide (f.toNat ≤ c.toNat) &&
            decide (c.toNat ≤ (lastChar f (x :: y :: rest)).toNat)) := by
      rw [← Bool.decide_and, decide_eq_decide]
      exact mem_iff_interval (x :: y :: rest) f c hchain
    rw [hmem]

theorem flattenPieces_head : ∀ rs : List (List Char), (∀ r ∈ rs, r ≠ []) →
    ((rs.map (renderRun escape_re_range_char)).flatten).head? ≠ some '-' := by
  intro rs h
  cases rs with
  | nil => simp
  | cons r rest =>
    have hr := h r (List.mem_cons_self r rest)
    cases r with
    | nil => exact absurd rfl hr
    | cons f l =>
      obtain ⟨u, hu⟩ := renderRun_cons escape_re_range_char f l
      simp only [List.map_cons, List.flatten_cons, hu, List.append_assoc]
      exact escHead f _

theorem classMatches_runs (c : Char) : ∀ runs : List (List Char),
    (∀ r ∈ runs, r ≠ [] ∧ List.Chain' StepOne r) →
    classMatches c ((runs.map (renderRun escape_re_range_char)).flatten)
      = decide (∃ r ∈ runs, c ∈ r) := by
  intro runs
  induction runs with
  | nil =>
    intro h
    rw [classMatches.eq_def]
    simp
  | cons r rs ih =>
    intro h
    have hr := h r (List.mem_cons_self r rs)
    have hrest : ∀ q ∈ rs, q ≠ [] ∧ List.Chain' StepOne q :=
      fun q hq => h q (List.mem_cons_of_mem r hq)
    simp only [List.map_cons, List.flatten_cons]
    rw [classMatches_piece c r _ hr.1 hr.2
        (flattenPieces_head rs (fun q hq => (hrest q hq).1)),
      ih hrest, ← Bool.decide_or, decide_eq_decide]
    constructor
    · rintro (hc | ⟨q, hq, hcq⟩)
      · exact ⟨r, List.mem_cons_self r rs, hc⟩
      · exact ⟨q, List.mem_cons_of_mem r hq, hcq⟩
    · rintro ⟨q, hq, hcq⟩
      rcases List.mem_cons.mp hq with rfl | hq2
      · exact Or.inl hcq
      · exact Or.inr ⟨q, hq2, hcq⟩

theorem splitRuns_shape : ∀ (xs : List Char) (x : Char),
    ∃ r tail, splitRuns (x :: xs) = (x :: r) :: tail := by
  intro xs
  induction xs with
  | nil => exact fun x => ⟨[], [], rfl⟩
  | cons d rest ih =>
    intro x
    obtain ⟨r, tail, hr⟩ := ih d
    by_cases h : consecutiveStep x d
    · refine ⟨d :: r, tail, ?_⟩
      rw [splitRuns, if_pos h, hr]
    · exact ⟨[], splitRuns (d :: rest), by rw [splitRuns, if_neg h]⟩

theorem flatten_splitRuns : ∀ l : List Char, (splitRuns l).flatten = l := by
  intro l
  induction l with
  | nil => rfl
  | cons x xs ih =>
    cases xs with
    | nil => rfl
    | cons d rest =>
      obtain ⟨r, tail, hr⟩ := splitRuns_shape rest d
      by_cases h : consecutiveStep x d
      · rw [splitRuns, if_pos h, hr]
        rw [hr] at ih
        simp only [List.flatten_cons, List.cons_append] at *
        rw [ih]
      · rw [splitRuns, if_neg h]
        simp only [List.flatten_cons, List.cons_append, List.nil_append, ih]

theorem splitRuns_ne_nil : ∀ l : List Char, ∀ r ∈ splitRuns l, r ≠ [] := by
  intro l
  induction l with
  | nil => simp [splitRuns]
  | cons x xs ih =>
    cases xs with
    | nil => simp [splitRuns]
    | cons d rest =>
      obtain ⟨r0, tail, hr⟩ := splitRuns_shape rest d
      by_cases h : consecutiveStep x d
      · rw [splitRuns, if_pos h, hr]
        intro r hrr
        rcases List.mem_cons.mp hrr with rfl | htail
        · simp
        · exact ih r (by rw [hr]; exact List.mem_cons_of_mem _ htail)
      · rw [splitRuns, if_neg h]
        intro r hrr
        rcases List.mem_cons.mp hrr with rfl | htail
        · simp
        · exact ih r htail

theorem splitRuns_chain : ∀ l : List Char,
    List.Chain' (fun a b : Char => a.toNat < b.toNat) l →
    ∀ r ∈ splitRuns l, List.Chain' StepOne r := by
  intro l
  induction l with
  | nil => simp [splitRuns]
  | cons x xs ih =>
    cases xs with
    | nil =>
      intro h r hr
      simp only [splitRuns, List.mem_singleton] at hr
      subst hr
      simp
    | cons d rest =>
      intro h
      rw [List.chain'_cons] at h
      obtain ⟨r0, tail, hr⟩ := splitRuns_shape rest d
      by_cases hc : consecutiveStep x d
      · rw [splitRuns, if_pos hc, hr]
        intro r hrr
        rcases List.mem_cons.mp hrr with rfl | htail
        · rw [List.chain'_cons]
          refine ⟨?_, ?_⟩
          · have hle : (d.toNat : Int) - (x.toNat : Int) ≤ 1 := by
              simpa [consecutiveStep] using hc
            have hlt : x.toNat < d.toNat := h.1
            show d.toNat = x.toNat + 1
            omega
          · exact ih h.2 (d :: r0) (by rw [hr]; exact List.mem_cons_self _ _)
        · exact ih h.2 r (by rw [hr]; exact List.mem_cons_of_mem _ htail)
      · rw [splitRuns, if_neg hc]
        intro r hrr
        rcases List.mem_cons.mp hrr with rfl | htail
        · simp
        · exact ih h.2 r htail

theorem mem_dedupSorted (s : List Char) (c : Char) : c ∈ dedupSorted s ↔ c ∈ s := by
  unfold dedupSorted
  rw [(List.perm_insertionSort _ s.dedup).mem_iff, List.mem_dedup]

theorem chain_lt_dedupSorted (s : List Char) :
    List.Chain' (fun a b : Char => a.toNat < b.toNat) (dedupSorted s) := by
  have htrans : IsTrans Char (fun a b : Char => a.toNat < b.toNat) :=
    ⟨fun _ _ _ => Nat.lt_trans⟩
  rw [List.chain'_iff_pairwise]
  have htot : IsTotal Char (fun a b : Char => a.toNat ≤ b.toNat) :=
    ⟨fun a b => Nat.le_total _ _⟩
  have htr2 : IsTrans Char (fun a b : Char => a.toNat ≤ b.toNat) :=
    ⟨fun _ _ _ => Nat.le_trans⟩
  have hs : List.Pairwise (fun a b : Char => a.toNat ≤ b.toNat) (dedupSorted s) :=
    List.sorted_insertionSort _ _
  have hnd : List.Pairwise (fun a b : Char => a ≠ b) (dedupSorted s) :=
    ((List.perm_insertionSort _ s.dedup).nodup_iff).mpr (List.nodup_dedup s)
  exact (hs.and hnd).imp fun hab =>
    Nat.lt_of_le_of_ne hab.1 fun hEq => hab.2 (charToNat_inj hEq)

theorem collapseChars_true (s : List Char) :
    collapseChars s true =
      (if (dedupSorted s).length > 3
        then ((splitRuns (dedupSorted s)).map (renderRun escape_re_range_char)).flatten
        else ((dedupSorted s).map escape_re_range_char).flatten) := rfl

/-- C2 (counterexample): with escaping enabled, a newline in the input set is
emitted by `_collapse_string_to_ranges` as the raw control character, not as
the two-character sequence backslash-`n` — the compactor's internal
`escape_re_range_char` only escapes `\^-][`. -/
theorem claim_C2_cex :
    _collapse_string_to_ranges ['\n'] true = String.mk ['\n'] ∧
    String.mk ['\n'] ≠ String.mk ['\\', 'n'] :=
  ⟨by decide, by decide⟩

/-- C2 (amended): when escaping is enabled, the compactor's
`escape_re_range_char` backslash-escapes each of the five characters
`\ ^ - [ ]` wherever it is emitted (run boundary or standalone), but leaves
newline and tab as raw control characters; the substitution of newline and
tab by the two-character sequences `\n` and `\t` is performed only by the
separate pre-pass helper `_escape_regex_range_chars`, which rewrites every
input character independently of run detection (equivalently to the
single-pass map `escPrePass`). -/
theorem claim_C2 :
    (∀ c ∈ rangeSpecials, escape_re_range_char c = ['\\', c]) ∧
    escape_re_range_char '\n' = ['\n'] ∧
    escape_re_range_char '\t' = ['\t'] ∧
    (∀ s : List Char, _escape_regex_range_chars s = s.flatMap escPrePass) := by
  refine ⟨?_, by decide, by decide, escape_regex_eq_flatMap⟩
  intro c hc
  simp only [rangeSpecials, List.mem_cons, List.not_mem_nil, or_false] at hc
  rcases hc with rfl | rfl | rfl | rfl | rfl <;> decide

theorem claim_C2_witness :
    escape_re_range_char '-' = ['\\', '-'] ∧
    _escape_regex_range_chars ['\n', 'a'] = ['\n', 'a'].flatMap escPrePass :=
  ⟨claim_C2.1 '-' (by decide), claim_C2.2.2.2 ['\n', 'a']⟩

/-- C8: when the input has at most 3 distinct characters, the compactor skips
run compression and emits each distinct character individually (escaped),
concatenated in ascending code-point order; in particular the compaction of
the empty set is `""`, of `{a}` is `"a"`, of `{a,c}` is `"ac"`, and of the
4-element consecutive set `{a,b,c,d}` is `"a-d"`. -/
theorem claim_C8 :
    (∀ s : List Char, s.dedup.length ≤ 3 →
      collapseChars s true = ((dedupSorted s).map escape_re_range_char).flatten) ∧
    _collapse_string_to_ranges [] true = "" ∧
    _collapse_string_to_ranges ['a'] true = "a" ∧
    _collapse_string_to_ranges ['a', 'c'] true = "ac" ∧
    _collapse_string_to_ranges ['a', 'b', 'c', 'd'] true = "a-d" := by
  refine ⟨?_, by decide, by decide, by decide, by decide⟩
  intro s hs
  have hlen : (dedupSorted s).length = s.dedup.length :=
    (List.perm_insertionSort _ _).length_eq
  rw [collapseChars_true, if_neg (by omega)]

theorem claim_C8_witness :
    collapseChars ['x', 'p'] true
      = ((dedupSorted ['x', 'p']).map escape_re_range_char).flatten :=
  claim_C8.1 ['x', 'p'] (by decide)

/-- C9: round-trip — for every character set `S`, interpreting the class body
produced by `_collapse_string_to_ranges S true` under standard
character-class semantics (single characters, backslash escapes, and
`first-last` ranges covering all code points inclusive) matches exactly the
characters of `S`. -/
theorem claim_C9 (s : List Char) (c : Char) :
    classMatches c (_collapse_string_to_ranges s true).data = true ↔ c ∈ s := by
  have hdata : (_collapse_string_to_ranges s true).data = collapseChars s true := rfl
  rw [hdata, collapseChars_true]
  by_cases hlen : (dedupSorted s).length > 3
  · rw [if_pos hlen,
      classMatches_runs c (splitRuns (dedupSorted s)) (fun r hr =>
        ⟨splitRuns_ne_nil _ r hr,
          splitRuns_chain _ (chain_lt_dedupSorted s) r hr⟩),
      decide_eq_true_iff]
    constructor
    · rintro ⟨r, hr, hc⟩
      have hmem : c ∈ (splitRuns (dedupSorted s)).flatten :=
        List.mem_flatten.mpr ⟨r, hr, hc⟩
      rw [flatten_splitRuns] at hmem
      exact (mem_dedupSorted s c).mp hmem
    · intro hc
      have hmem : c ∈ (splitRuns (dedupSorted s)).flatten := by
        rw [flatten_splitRuns]
        exact (mem_dedupSorted s c).mpr hc
      exact List.mem_flatten.mp hmem
  · rw [if_neg hlen]
    have hmap : (dedupSorted s).map escape_re_range_char
        = ((dedupSorted s).map (fun x => [x])).map (renderRun escape_re_range_char) := by
      rw [List.map_map]
      apply List.map_congr_left
      intro x hx
      simp [Function.comp, renderRun, lastChar]
    rw [hmap,
      classMatches_runs c _ (fun r hr => by
        simp only [List.mem_map] at hr
        obtain ⟨x, hx, rfl⟩ := hr
        exact ⟨by simp, by simp⟩),
      decide_eq_true_iff, ← mem_dedupSorted s c]
    constructor
    · rintro ⟨r, hr, hc⟩
      simp only [List.mem_map] at hr
      obtain ⟨x, hx, rfl⟩ := hr
      simp only [List.mem_singleton] at hc
      subst hc
      exact hx
    · intro hc
      exact ⟨[c], List.mem_map.mpr ⟨c, hc, rfl⟩, List.mem_singleton.mpr rfl⟩

theorem claim_C9_witness :
    classMatches 'b' (_collapse_string_to_ranges ['a', 'b', 'c', 'd'] true).data
        = true ↔ 'b' ∈ ['a', 'b', 'c', 'd'] :=
  claim_C9 ['a', 'b', 'c', 'd'] 'b'

end PyparsingUtil
